import Mathlib

/-!
Verification of the HC-SR04 ultrasonic distance sampler (`src/src/main.cpp`).

The program drives a trigger pin, measures an echo pulse width with
`pulseIn`, converts it to centimeters with `distance = (duration * 0.0343) / 2`
computed in C++ `double` (IEEE-754 binary64) arithmetic, prints one report
line per cycle, and delays 500 ms.

The embedding has two layers:

* an exact model of the binary64 arithmetic used by the conversion: doubles
  are dyadic pairs `(m, e)` of integers with value `m * 2^e`, and rounding
  is round-to-nearest, ties-to-even on a 53-bit significand, implemented
  with plain integer arithmetic so the kernel can evaluate it;
* a trace model of one `loop()` iteration (`cycleStep`) emitting hardware
  and serial events, with the two global `long` variables threaded through.
-/

set_option maxRecDepth 4000

namespace DistanceSampler

/-- Floor of log2 for a positive natural, fuel-driven (`f ≥ n` suffices). -/
def natLog2F : ℕ → ℕ → ℕ
  | 0, _ => 0
  | f + 1, n => if n < 2 then 0 else natLog2F f (n / 2) + 1

/-- Decide `b * 2^e ≤ a` for naturals `a b` and integer exponent `e`. -/
def scaleLe (b a : ℕ) (e : ℤ) : Bool :=
  if 0 ≤ e then b * 2 ^ e.toNat ≤ a else b ≤ a * 2 ^ (-e).toNat

/-- The binade exponent of the positive ratio `a / b`:
the unique `e` with `2^e ≤ a/b < 2^(e+1)`. -/
def dlog (a b : ℕ) : ℤ :=
  let e0 : ℤ := (natLog2F a a : ℤ) - natLog2F b b
  if scaleLe b a e0 then e0 else e0 - 1

/-- Round `N / B` (with `B > 0`) to the nearest natural, ties to even —
the IEEE-754 default rounding applied to an exact significand. -/
def rneDiv (N B : ℕ) : ℕ :=
  let q := N / B
  let r := N % B
  if 2 * r < B then q else if B < 2 * r then q + 1 else if q % 2 = 0 then q else q + 1

/-- Round the positive ratio `a / b` to the nearest IEEE-754 binary64 value,
returned as a significand/exponent pair.  Overflow and subnormals never
arise at the magnitudes this program produces. -/
def roundNN (a b : ℕ) : ℕ × ℤ :=
  let e := dlog a b
  if 0 ≤ 52 - e then (rneDiv (a * 2 ^ (52 - e).toNat) b, e - 52)
  else (rneDiv a (b * 2 ^ (e - 52).toNat), e - 52)

/-- Round the ratio `a / b` of an integer and a positive natural to the
nearest binary64 value. -/
def roundZ (a : ℤ) (b : ℕ) : ℤ × ℤ :=
  if a = 0 then (0, 0)
  else if 0 < a then
    let p := roundNN a.toNat b
    ((p.1 : ℤ), p.2)
  else
    let p := roundNN (-a).toNat b
    (-(p.1 : ℤ), p.2)

/-- Round a dyadic value `m * 2^e` to the nearest binary64 value. -/
def roundD (x : ℤ × ℤ) : ℤ × ℤ :=
  if 0 ≤ x.2 then roundZ (x.1 * 2 ^ x.2.toNat) 1 else roundZ x.1 (2 ^ (-x.2).toNat)

/-- Exact product of two dyadic values. -/
def mulD (x y : ℤ × ℤ) : ℤ × ℤ := (x.1 * y.1, x.2 + y.2)

/-- Exact halving of a dyadic value. -/
def halfD (x : ℤ × ℤ) : ℤ × ℤ := (x.1, x.2 - 1)

/-- C++ `double` → `long` conversion: truncation toward zero. -/
def truncD (x : ℤ × ℤ) : ℤ :=
  if 0 ≤ x.2 then x.1 * 2 ^ x.2.toNat
  else if 0 ≤ x.1 then (x.1.toNat / 2 ^ (-x.2).toNat : ℕ)
  else -((-x.1).toNat / 2 ^ (-x.2).toNat : ℕ)

/-- The `double` value of the source literal `0.0343`
(speed of sound in cm/µs): the binary64 rounding of 343/10000. -/
def c64 : ℤ × ℤ := roundZ 343 10000

/-- The distance computation of `loop()`:
`distance = (duration * 0.0343) / 2`, evaluated in binary64 arithmetic
(widen `duration`, multiply by the double `0.0343`, divide by the exact
double `2` — each step rounded) and truncated to `long`. -/
def distanceFromDuration (dur : ℤ) : ℤ :=
  truncD (roundD (halfD (roundD (mulD (roundZ dur 1) c64))))

/-- C++ conversion of a 32-bit `unsigned long` (the return type of
`pulseIn`) to a 32-bit signed `long`, as gcc implements it: reduce
modulo 2^32 into the interval from `-2^31` to `2^31 - 1`. -/
def toSigned32 (u : ℕ) : ℤ :=
  if u % 2 ^ 32 < 2 ^ 31 then (u % 2 ^ 32 : ℕ) else (u % 2 ^ 32 : ℕ) - 2 ^ 32

/-- Modelled from the spec: the conversion law the spec asserts,
`distanceCm = floor(d * 0.0343 / 2)` over exact real arithmetic. -/
def specDistance (d : ℤ) : ℤ := ⌊(d : ℚ) * (343 / 10000) / 2⌋

/-! ### Trace model of `setup()` and `loop()` -/

/-- Pin connected to the trigger pin of the HC-SR04 sensor. -/
def trigPin : ℕ := 9

/-- Pin connected to the echo pin of the HC-SR04 sensor. -/
def echoPin : ℕ := 10

/-- Observable actions of one loop iteration: digital pin writes
(`true` = HIGH, `false` = LOW), busy microsecond and millisecond delays,
the blocking `pulseIn` measurement (recording the pin read and the
returned width), and the serial prints. -/
inductive Event where
  | write (pin : ℕ) (level : Bool)
  | delayUs (n : ℕ)
  | delayMs (n : ℕ)
  | pulseInHigh (pin : ℕ) (width : ℕ)
  | serialPrint (s : String)
  | serialPrintln (s : String)
deriving DecidableEq

/-- The two global `long` variables of the program. -/
structure Globals where
  duration : ℤ
  distance : ℤ
deriving DecidableEq

/-- Globals are zero-initialized before `setup()` runs. -/
def initialGlobals : Globals := ⟨0, 0⟩

/-- One iteration of `loop()`, driven by the value `u` that `pulseIn`
returns (a 32-bit `unsigned long`): updates the globals and emits the
iteration trace, statement by statement in source order. -/
def cycleStep (_g : Globals) (u : ℕ) : Globals × List Event :=
  let dur := toSigned32 u
  let dist := distanceFromDuration dur
  (⟨dur, dist⟩,
    [Event.write trigPin false,
     Event.delayUs 2,
     Event.write trigPin true,
     Event.delayUs 10,
     Event.write trigPin false,
     Event.pulseInHigh echoPin u,
     Event.serialPrint "Distance: ",
     Event.serialPrint (toString dist),
     Event.serialPrintln " cm",
     Event.delayMs 500])

/-- Run the loop once per element of `us`, where the `i`-th element is the
value `pulseIn` returns in the `i`-th iteration; concatenate the traces. -/
def runLoop (g : Globals) : List ℕ → List Event
  | [] => []
  | u :: us => (cycleStep g u).2 ++ runLoop (cycleStep g u).1 us

/-- Assemble the complete serial lines of a trace: `serialPrint` appends to
the line buffer, `serialPrintln` terminates the line.  An unterminated
buffer is not a line. -/
def linesAux (buf : String) : List Event → List String
  | [] => []
  | Event.serialPrint s :: es => linesAux (buf ++ s) es
  | Event.serialPrintln s :: es => (buf ++ s) :: linesAux "" es
  | _ :: es => linesAux buf es

/-- The complete serial lines a trace emits. -/
def emittedLines (es : List Event) : List String := linesAux "" es

/-- The report line for a computed distance value, as the three serial
statements of `loop()` produce it. -/
def reportLine (dist : ℤ) : String := "Distance: " ++ toString dist ++ " cm"

/-- The distance value printed in the cycle whose `pulseIn` call returns `u`. -/
def printedDistance (u : ℕ) : ℤ := distanceFromDuration (toSigned32 u)

/-- A conservative lower bound, in microseconds, on the wall-clock time a
trace consumes: delays count in full, and the blocking `pulseIn` call is
counted only for the width it reports (it actually also waits for the
rising edge). -/
def traceTimeUs : List Event → ℕ
  | [] => 0
  | Event.delayUs n :: es => n + traceTimeUs es
  | Event.delayMs n :: es => 1000 * n + traceTimeUs es
  | Event.pulseInHigh _ w :: es => w + traceTimeUs es
  | _ :: es => traceTimeUs es

/-! ### Proof layer: values of dyadics, correctness of the rounding -/

/-- The rational value of a dyadic pair. -/
def dval (x : ℤ × ℤ) : ℚ := x.1 * (2 : ℚ) ^ x.2

theorem natLog2F_spec : ∀ f n : ℕ, 1 ≤ n → n ≤ f →
    2 ^ natLog2F f n ≤ n ∧ n < 2 ^ (natLog2F f n + 1) := by
  intro f
  induction f with
  | zero => intro n h1 h2 ; omega
  | succ f ih =>
    intro n h1 h2
    rw [natLog2F]
    by_cases hn : n < 2
    · simp only [if_pos hn]
      omega
    · simp only [if_neg hn]
      have hd1 : 1 ≤ n / 2 := Nat.one_le_div_iff (by norm_num) |>.mpr (by omega)
      have hdf : n / 2 ≤ f := by omega
      obtain ⟨hlo, hhi⟩ := ih (n / 2) hd1 hdf
      constructor
      · calc 2 ^ (natLog2F f (n / 2) + 1) = 2 * 2 ^ natLog2F f (n / 2) := by ring
        _ ≤ 2 * (n / 2) := by omega
        _ ≤ n := by omega
      · have : n < 2 * (n / 2) + 2 := by omega
        calc n < 2 * (n / 2) + 2 := this
        _ ≤ 2 * (2 ^ (natLog2F f (n / 2) + 1) - 1) + 2 := by
            have h2p : 1 ≤ 2 ^ (natLog2F f (n / 2) + 1) := Nat.one_le_two_pow
            omega
        _ ≤ 2 ^ (natLog2F f (n / 2) + 1 + 1) := by
            rw [pow_succ]
            omega

theorem scaleLe_iff (b a : ℕ) (e : ℤ) :
    scaleLe b a e = true ↔ (2 : ℚ) ^ e * b ≤ a := by
  unfold scaleLe
  by_cases he : 0 ≤ e
  · simp only [if_pos he, decide_eq_true_eq]
    rw [show e = (e.toNat : ℤ) by omega, zpow_natCast]
    rw [show ((2 : ℚ) ^ e.toNat) = ((2 ^ e.toNat : ℕ) : ℚ) by push_cast ; ring]
    rw [← Nat.cast_mul, mul_comm]
    exact_mod_cast Iff.rfl
  · simp only [if_neg he, decide_eq_true_eq]
    obtain ⟨k, rfl⟩ : ∃ k : ℕ, e = -k := ⟨(-e).toNat, by omega⟩
    rw [show ((- -(k : ℤ)).toNat) = k by omega]
    have h2 : (0 : ℚ) < 2 ^ k := by positivity
    rw [zpow_neg, zpow_natCast, inv_mul_eq_div, div_le_iff h2]
    rw [show ((2 : ℚ) ^ k) = ((2 ^ k : ℕ) : ℚ) by push_cast ; ring]
    rw [← Nat.cast_mul]
    exact_mod_cast Iff.rfl

theorem dlog_spec (a b : ℕ) (ha : 1 ≤ a) (hb : 1 ≤ b) :
    (2 : ℚ) ^ dlog a b * b ≤ a ∧ (a : ℚ) < 2 ^ (dlog a b + 1) * b := by
  obtain ⟨hla, hla2⟩ := natLog2F_spec a a ha le_rfl
  obtain ⟨hlb, hlb2⟩ := natLog2F_spec b b hb le_rfl
  set la := natLog2F a a with hLa
  set lb := natLog2F b b with hLb
  have h2 : (2 : ℚ) ≠ 0 := by norm_num
  have qa1 : (2 : ℚ) ^ (la : ℤ) ≤ a := by
    rw [zpow_natCast] ; exact_mod_cast hla
  have qa2 : (a : ℚ) < 2 ^ ((la : ℤ) + 1) := by
    rw [show ((la : ℤ) + 1) = ((la + 1 : ℕ) : ℤ) by push_cast ; ring, zpow_natCast]
    exact_mod_cast hla2
  have qb1 : (2 : ℚ) ^ (lb : ℤ) ≤ b := by
    rw [zpow_natCast] ; exact_mod_cast hlb
  have qb2 : (b : ℚ) < 2 ^ ((lb : ℤ) + 1) := by
    rw [show ((lb : ℤ) + 1) = ((lb + 1 : ℕ) : ℤ) by push_cast ; ring, zpow_natCast]
    exact_mod_cast hlb2
  have hd : dlog a b =
      (if scaleLe b a ((la : ℤ) - lb) = true then ((la : ℤ) - lb) else ((la : ℤ) - lb) - 1) := by
    unfold dlog
    rw [← hLa, ← hLb]
  by_cases hs : scaleLe b a ((la : ℤ) - lb) = true
  · rw [hd, if_pos hs]
    refine ⟨(scaleLe_iff b a _).mp hs, ?_⟩
    calc (a : ℚ) < 2 ^ ((la : ℤ) + 1) := qa2
      _ = 2 ^ ((la : ℤ) - lb + 1) * 2 ^ (lb : ℤ) := by
          rw [← zpow_add₀ h2] ; congr 1 ; ring
      _ ≤ 2 ^ ((la : ℤ) - lb + 1) * b := by
          have : (0 : ℚ) < 2 ^ ((la : ℤ) - lb + 1) := by positivity
          exact mul_le_mul_of_nonneg_left qb1 (le_of_lt this)
  · rw [hd, if_neg hs]
    have hs2 : (a : ℚ) < 2 ^ ((la : ℤ) - lb) * b := by
      have := (scaleLe_iff b a ((la : ℤ) - lb)).not.mp (by simpa using hs)
      linarith [not_le.mp this]
    constructor
    · have step : (2 : ℚ) ^ ((la : ℤ) - lb - 1) * b < 2 ^ (la : ℤ) := by
        calc (2 : ℚ) ^ ((la : ℤ) - lb - 1) * b
            < 2 ^ ((la : ℤ) - lb - 1) * 2 ^ ((lb : ℤ) + 1) := by
              have : (0 : ℚ) < 2 ^ ((la : ℤ) - lb - 1) := by positivity
              exact mul_lt_mul_of_pos_left qb2 this
          _ = 2 ^ (la : ℤ) := by rw [← zpow_add₀ h2] ; congr 1 ; ring
      linarith
    · rw [show ((la : ℤ) - lb - 1 + 1) = ((la : ℤ) - lb) by ring]
      exact hs2

/-- Proof-layer form of `rneDiv`: round a rational to the nearest integer,
ties to even. -/
def rneQ (x : ℚ) : ℤ :=
  if x - ⌊x⌋ < 1/2 then ⌊x⌋
  else if 1/2 < x - ⌊x⌋ then ⌊x⌋ + 1
  else if ⌊x⌋ % 2 = 0 then ⌊x⌋ else ⌊x⌋ + 1

theorem rneQ_cases (x : ℚ) : rneQ x = ⌊x⌋ ∨ rneQ x = ⌊x⌋ + 1 := by
  unfold rneQ ; split_ifs <;> simp

theorem floor_le_rneQ (x : ℚ) : ⌊x⌋ ≤ rneQ x := by
  rcases rneQ_cases x with h | h <;> omega

theorem rneQ_le (x : ℚ) : (rneQ x : ℚ) ≤ x + 1/2 := by
  unfold rneQ ; split_ifs <;> push_cast <;>
    linarith [Int.floor_le x, Int.lt_floor_add_one x]

theorem rneQ_ge (x : ℚ) : x - 1/2 ≤ (rneQ x : ℚ) := by
  unfold rneQ ; split_ifs <;> push_cast <;>
    linarith [Int.floor_le x, Int.lt_floor_add_one x]

theorem rneQ_mono {x y : ℚ} (h : x ≤ y) : rneQ x ≤ rneQ y := by
  have hf : ⌊x⌋ ≤ ⌊y⌋ := Int.floor_mono h
  have hcase : ⌊x⌋ < ⌊y⌋ ∨ (⌊x⌋ = ⌊y⌋ ∧ x - ⌊x⌋ ≤ y - ⌊y⌋) := by
    by_cases heq : ⌊x⌋ = ⌊y⌋
    · right
      refine ⟨heq, ?_⟩
      rw [heq]
      linarith
    · left ; omega
  unfold rneQ
  split_ifs <;> rcases hcase with hlt | ⟨heq, hfr⟩ <;>
    first
      | omega
      | (exfalso ; linarith)

theorem natDiv_decomp (N B : ℕ) (hB : 0 < B) :
    (N : ℚ) / B = (N / B : ℕ) + ((N % B : ℕ) : ℚ) / B := by
  have h0 : (N : ℚ) = (B : ℚ) * (N / B : ℕ) + ((N % B : ℕ) : ℚ) := by
    exact_mod_cast (Nat.div_add_mod N B).symm
  have hBQ : (0 : ℚ) < B := by exact_mod_cast hB
  rw [h0]
  field_simp
  ring

theorem floor_natCast_div (N B : ℕ) (hB : 0 < B) :
    ⌊(N : ℚ) / B⌋ = ((N / B : ℕ) : ℤ) := by
  have hBQ : (0 : ℚ) < B := by exact_mod_cast hB
  have hr1 : (0 : ℚ) ≤ ((N % B : ℕ) : ℚ) / B := by positivity
  have hr2 : ((N % B : ℕ) : ℚ) / B < 1 := by
    rw [div_lt_one hBQ]
    exact_mod_cast Nat.mod_lt N hB
  rw [natDiv_decomp N B hB]
  apply Int.floor_eq_iff.mpr
  refine ⟨?_, ?_⟩
  · rw [Int.cast_natCast]
    linarith
  · rw [Int.cast_natCast]
    linarith

theorem rneDiv_eq_rneQ (N B : ℕ) (hB : 0 < B) :
    (rneDiv N B : ℤ) = rneQ ((N : ℚ) / B) := by
  have hBQ : (0 : ℚ) < B := by exact_mod_cast hB
  have hdecomp := natDiv_decomp N B hB
  have hr1 : (0 : ℚ) ≤ ((N % B : ℕ) : ℚ) / B := by positivity
  have hr2 : ((N % B : ℕ) : ℚ) / B < 1 := by
    rw [div_lt_one hBQ]
    exact_mod_cast Nat.mod_lt N hB
  have hfloor := floor_natCast_div N B hB
  have hc1 : (N : ℚ) / B - ⌊(N : ℚ) / B⌋ = ((N % B : ℕ) : ℚ) / B := by
    rw [hfloor, hdecomp, Int.cast_natCast] ; ring
  have i1 : ((N : ℚ) / B - ⌊(N : ℚ) / B⌋ < 1/2) ↔ 2 * (N % B) < B := by
    rw [hc1, div_lt_div_iff hBQ (by norm_num : (0 : ℚ) < 2)]
    constructor <;> intro hh
    · have h3 : ((2 * (N % B) : ℕ) : ℚ) < B := by push_cast ; linarith
      exact_mod_cast h3
    · have h3 : ((2 * (N % B) : ℕ) : ℚ) < B := by exact_mod_cast hh
      push_cast at h3 ; linarith
  have i2 : (1/2 < (N : ℚ) / B - ⌊(N : ℚ) / B⌋) ↔ B < 2 * (N % B) := by
    rw [hc1, div_lt_div_iff (by norm_num : (0 : ℚ) < 2) hBQ]
    constructor <;> intro hh
    · have : (B : ℚ) < ((2 * (N % B) : ℕ) : ℚ) := by push_cast ; linarith
      exact_mod_cast this
    · have : (B : ℚ) < ((2 * (N % B) : ℕ) : ℚ) := by exact_mod_cast hh
      push_cast at this ; linarith
  have i3 : (⌊(N : ℚ) / B⌋ % 2 = 0) ↔ (N / B) % 2 = 0 := by
    rw [hfloor]
    constructor <;> intro hh <;> exact_mod_cast hh
  unfold rneQ rneDiv
  simp only [i1, i2, i3]
  rw [hfloor]
  split_ifs <;> push_cast <;> ring

theorem roundNN_val (a b : ℕ) (hb : 1 ≤ b) :
    ((roundNN a b).1 : ℚ) * 2 ^ (roundNN a b).2 =
      (rneQ ((a : ℚ) / b * 2 ^ (52 - dlog a b)) : ℚ) * 2 ^ (dlog a b - 52) := by
  simp only [roundNN]
  by_cases hc : (0 : ℤ) ≤ 52 - dlog a b
  · rw [if_pos hc]
    simp only
    congr 1
    have h1 := rneDiv_eq_rneQ (a * 2 ^ (52 - dlog a b).toNat) b hb
    have h2 : ((a * 2 ^ (52 - dlog a b).toNat : ℕ) : ℚ) / b =
        (a : ℚ) / b * 2 ^ (52 - dlog a b) := by
      push_cast
      rw [show ((52 : ℤ) - dlog a b) = ((52 - dlog a b).toNat : ℤ) by omega, zpow_natCast]
      simp only [neg_neg, Int.toNat_natCast]
      ring
    rw [h2] at h1
    exact_mod_cast h1
  · rw [if_neg hc]
    simp only
    congr 1
    have hBpos : 0 < b * 2 ^ (dlog a b - 52).toNat := by positivity
    have h1 := rneDiv_eq_rneQ a (b * 2 ^ (dlog a b - 52).toNat) hBpos
    have h2 : (a : ℚ) / ((b * 2 ^ (dlog a b - 52).toNat : ℕ) : ℚ) =
        (a : ℚ) / b * 2 ^ (52 - dlog a b) := by
      push_cast
      rw [show ((52 : ℤ) - dlog a b) = -(((dlog a b - 52).toNat : ℤ)) by omega, zpow_neg,
        zpow_natCast]
      have hbne : (b : ℚ) ≠ 0 := by positivity
      have hpne : ((2 : ℚ) ^ (dlog a b - 52).toNat) ≠ 0 := by positivity
      field_simp
    rw [h2] at h1
    exact_mod_cast h1

theorem roundNN_bounds (a b : ℕ) (ha : 1 ≤ a) (hb : 1 ≤ b) :
    (2 : ℚ) ^ dlog a b ≤ ((roundNN a b).1 : ℚ) * 2 ^ (roundNN a b).2 ∧
      ((roundNN a b).1 : ℚ) * 2 ^ (roundNN a b).2 ≤ 2 ^ (dlog a b + 1) := by
  obtain ⟨hl, hu⟩ := dlog_spec a b ha hb
  rw [roundNN_val a b hb]
  have h2ne : (2 : ℚ) ≠ 0 := by norm_num
  have hbQ : (0 : ℚ) < b := by exact_mod_cast hb
  set e := dlog a b with he
  set x := (a : ℚ) / b with hx
  have hx1 : (2 : ℚ) ^ e ≤ x := (le_div_iff hbQ).mpr hl
  have hx2 : x < 2 ^ (e + 1) := (div_lt_iff hbQ).mpr hu
  set s := x * 2 ^ (52 - e) with hs
  have hp : (0 : ℚ) < 2 ^ (52 - e) := by positivity
  have hs1 : (2 : ℚ) ^ (52 : ℤ) ≤ s := by
    calc (2 : ℚ) ^ (52 : ℤ) = 2 ^ e * 2 ^ (52 - e) := by
          rw [← zpow_add₀ h2ne] ; congr 1 ; ring
      _ ≤ x * 2 ^ (52 - e) := mul_le_mul_of_nonneg_right hx1 (le_of_lt hp)
  have hs2 : s < (2 : ℚ) ^ (53 : ℤ) := by
    calc s < 2 ^ (e + 1) * 2 ^ (52 - e) := mul_lt_mul_of_pos_right hx2 hp
      _ = (2 : ℚ) ^ (53 : ℤ) := by rw [← zpow_add₀ h2ne] ; congr 1 ; ring
  have hq52 : ((2 ^ 52 : ℤ) : ℚ) = (2 : ℚ) ^ (52 : ℤ) := by norm_num
  have hq53 : ((2 ^ 53 : ℤ) : ℚ) = (2 : ℚ) ^ (53 : ℤ) := by norm_num
  have hr1 : (2 : ℚ) ^ (52 : ℤ) ≤ (rneQ s : ℚ) := by
    have hfl : (2 ^ 52 : ℤ) ≤ ⌊s⌋ := Int.le_floor.mpr (by rw [hq52] ; exact hs1)
    have := floor_le_rneQ s
    rw [← hq52]
    exact_mod_cast le_trans hfl this
  have hr2 : (rneQ s : ℚ) ≤ (2 : ℚ) ^ (53 : ℤ) := by
    have h1 : (rneQ s : ℚ) ≤ s + 1/2 := rneQ_le s
    have h2 : (rneQ s : ℚ) < ((2 ^ 53 : ℤ) : ℚ) + 1 := by rw [hq53] ; linarith
    have h3 : rneQ s ≤ (2 ^ 53 : ℤ) := by
      have := (by exact_mod_cast h2 : rneQ s < (2 ^ 53 : ℤ) + 1)
      omega
    rw [← hq53]
    exact_mod_cast h3
  have hpe : (0 : ℚ) < 2 ^ (e - 52) := by positivity
  constructor
  · calc (2 : ℚ) ^ e = 2 ^ (52 : ℤ) * 2 ^ (e - 52) := by
          rw [← zpow_add₀ h2ne] ; congr 1 ; ring
      _ ≤ (rneQ s : ℚ) * 2 ^ (e - 52) := mul_le_mul_of_nonneg_right hr1 (le_of_lt hpe)
  · calc (rneQ s : ℚ) * 2 ^ (e - 52) ≤ 2 ^ (53 : ℤ) * 2 ^ (e - 52) :=
          mul_le_mul_of_nonneg_right hr2 (le_of_lt hpe)
      _ = 2 ^ (e + 1) := by rw [← zpow_add₀ h2ne] ; congr 1 ; ring

theorem roundNN_err (a b : ℕ) (ha : 1 ≤ a) (hb : 1 ≤ b) :
    |((roundNN a b).1 : ℚ) * 2 ^ (roundNN a b).2 - (a : ℚ) / b| ≤
      (a : ℚ) / b * 2 ^ (-53 : ℤ) := by
  obtain ⟨hl, hu⟩ := dlog_spec a b ha hb
  rw [roundNN_val a b hb]
  have h2ne : (2 : ℚ) ≠ 0 := by norm_num
  have hbQ : (0 : ℚ) < b := by exact_mod_cast hb
  set e := dlog a b with he
  set x := (a : ℚ) / b with hx
  have hx1 : (2 : ℚ) ^ e ≤ x := (le_div_iff hbQ).mpr hl
  set s := x * 2 ^ (52 - e) with hs
  have hid : x = s * 2 ^ (e - 52) := by
    rw [hs, mul_assoc, ← zpow_add₀ h2ne]
    rw [show (52 - e + (e - 52) : ℤ) = 0 by ring, zpow_zero, mul_one]
  have habs : |(rneQ s : ℚ) - s| ≤ 1/2 :=
    abs_le.mpr ⟨by linarith [rneQ_ge s], by linarith [rneQ_le s]⟩
  have hpe : (0 : ℚ) < 2 ^ (e - 52) := by positivity
  calc |(rneQ s : ℚ) * 2 ^ (e - 52) - x|
      = |(rneQ s : ℚ) - s| * 2 ^ (e - 52) := by
        rw [hid, ← sub_mul, abs_mul, abs_of_pos hpe]
    _ ≤ 1/2 * 2 ^ (e - 52) := mul_le_mul_of_nonneg_right habs (le_of_lt hpe)
    _ = 2 ^ e * 2 ^ (-53 : ℤ) := by
        rw [← zpow_add₀ h2ne]
        rw [show ((1 : ℚ)/2) = 2 ^ (-1 : ℤ) by norm_num]
        rw [← zpow_add₀ h2ne]
        congr 1 ; ring
    _ ≤ x * 2 ^ (-53 : ℤ) := by
        have : (0 : ℚ) < 2 ^ (-53 : ℤ) := by positivity
        exact mul_le_mul_of_nonneg_right hx1 (le_of_lt this)

theorem roundNN_mono (a₁ b₁ a₂ b₂ : ℕ) (ha₁ : 1 ≤ a₁) (hb₁ : 1 ≤ b₁)
    (ha₂ : 1 ≤ a₂) (hb₂ : 1 ≤ b₂) (h : (a₁ : ℚ) / b₁ ≤ (a₂ : ℚ) / b₂) :
    ((roundNN a₁ b₁).1 : ℚ) * 2 ^ (roundNN a₁ b₁).2 ≤
      ((roundNN a₂ b₂).1 : ℚ) * 2 ^ (roundNN a₂ b₂).2 := by
  have h2ne : (2 : ℚ) ≠ 0 := by norm_num
  have hb₁Q : (0 : ℚ) < b₁ := by exact_mod_cast hb₁
  have hb₂Q : (0 : ℚ) < b₂ := by exact_mod_cast hb₂
  obtain ⟨hl₁, hu₁⟩ := dlog_spec a₁ b₁ ha₁ hb₁
  obtain ⟨hl₂, hu₂⟩ := dlog_spec a₂ b₂ ha₂ hb₂
  have hx1 : (2 : ℚ) ^ dlog a₁ b₁ ≤ (a₁ : ℚ) / b₁ := (le_div_iff hb₁Q).mpr hl₁
  have hx2 : (a₂ : ℚ) / b₂ < 2 ^ (dlog a₂ b₂ + 1) := (div_lt_iff hb₂Q).mpr hu₂
  have hee : dlog a₁ b₁ ≤ dlog a₂ b₂ := by
    have hlt : (2 : ℚ) ^ dlog a₁ b₁ < 2 ^ (dlog a₂ b₂ + 1) := by
      calc (2 : ℚ) ^ dlog a₁ b₁ ≤ (a₁ : ℚ) / b₁ := hx1
        _ ≤ (a₂ : ℚ) / b₂ := h
        _ < 2 ^ (dlog a₂ b₂ + 1) := hx2
    have := (zpow_lt_zpow_iff_right₀ (by norm_num : (1 : ℚ) < 2)).mp hlt
    omega
  rcases eq_or_lt_of_le hee with heq | hlt
  · rw [roundNN_val a₁ b₁ hb₁, roundNN_val a₂ b₂ hb₂, ← heq]
    have hmono : rneQ ((a₁ : ℚ) / b₁ * 2 ^ (52 - dlog a₁ b₁)) ≤
        rneQ ((a₂ : ℚ) / b₂ * 2 ^ (52 - dlog a₁ b₁)) := by
      apply rneQ_mono
      have : (0 : ℚ) < 2 ^ (52 - dlog a₁ b₁) := by positivity
      exact mul_le_mul_of_nonneg_right h (le_of_lt this)
    have hpe : (0 : ℚ) < 2 ^ (dlog a₁ b₁ - 52) := by positivity
    exact mul_le_mul_of_nonneg_right (by exact_mod_cast hmono) (le_of_lt hpe)
  · obtain ⟨_, hub⟩ := roundNN_bounds a₁ b₁ ha₁ hb₁
    obtain ⟨hlb, _⟩ := roundNN_bounds a₂ b₂ ha₂ hb₂
    calc ((roundNN a₁ b₁).1 : ℚ) * 2 ^ (roundNN a₁ b₁).2
        ≤ 2 ^ (dlog a₁ b₁ + 1) := hub
      _ ≤ 2 ^ dlog a₂ b₂ := zpow_le_zpow_right₀ (by norm_num) (by omega)
      _ ≤ ((roundNN a₂ b₂).1 : ℚ) * 2 ^ (roundNN a₂ b₂).2 := hlb

theorem dval_nonneg_iff (x : ℤ × ℤ) : 0 ≤ dval x ↔ 0 ≤ x.1 := by
  unfold dval
  have hp : (0 : ℚ) < 2 ^ x.2 := by positivity
  constructor
  · intro h
    by_contra hneg
    have hx : (x.1 : ℚ) < 0 := by exact_mod_cast not_le.mp hneg
    nlinarith
  · intro h
    have hx : (0 : ℚ) ≤ (x.1 : ℚ) := by exact_mod_cast h
    positivity

theorem dval_mulD (x y : ℤ × ℤ) : dval (mulD x y) = dval x * dval y := by
  unfold dval mulD
  simp only
  rw [zpow_add₀ (by norm_num : (2 : ℚ) ≠ 0)]
  push_cast
  ring

theorem dval_halfD (x : ℤ × ℤ) : dval (halfD x) = dval x / 2 := by
  unfold dval halfD
  simp only
  rw [zpow_sub₀ (by norm_num : (2 : ℚ) ≠ 0)]
  norm_num
  ring

theorem roundZ_zero (b : ℕ) : roundZ 0 b = (0, 0) := by
  unfold roundZ
  simp

theorem dval_roundZ_pos (a : ℤ) (b : ℕ) (ha : 0 < a) :
    dval (roundZ a b) = ((roundNN a.toNat b).1 : ℚ) * 2 ^ (roundNN a.toNat b).2 := by
  unfold roundZ dval
  rw [if_neg (by omega), if_pos ha]
  simp

theorem roundZ_err (a : ℤ) (b : ℕ) (ha : 0 ≤ a) (hb : 1 ≤ b) :
    |dval (roundZ a b) - (a : ℚ) / b| ≤ (a : ℚ) / b * 2 ^ (-53 : ℤ) := by
  rcases eq_or_lt_of_le ha with h0 | h0
  · rw [← h0, roundZ_zero]
    unfold dval
    norm_num
  · rw [dval_roundZ_pos a b h0]
    have hcast : ((a.toNat : ℕ) : ℚ) = (a : ℚ) := by
      exact_mod_cast Int.toNat_of_nonneg ha
    have := roundNN_err a.toNat b (by omega) hb
    rw [hcast] at this
    exact this

theorem roundZ_nonneg (a : ℤ) (b : ℕ) (ha : 0 ≤ a) (hb : 1 ≤ b) :
    0 ≤ dval (roundZ a b) := by
  rcases eq_or_lt_of_le ha with h0 | h0
  · rw [← h0, roundZ_zero]
    unfold dval
    norm_num
  · rw [dval_roundZ_pos a b h0]
    have := (roundNN_bounds a.toNat b (by omega) hb).1
    have hp : (0 : ℚ) < 2 ^ dlog a.toNat b := by positivity
    linarith

theorem roundZ_mono (a₁ a₂ : ℤ) (b₁ b₂ : ℕ) (ha₁ : 0 ≤ a₁) (hb₁ : 1 ≤ b₁) (hb₂ : 1 ≤ b₂)
    (ha₂ : 0 ≤ a₂) (h : (a₁ : ℚ) / b₁ ≤ (a₂ : ℚ) / b₂) :
    dval (roundZ a₁ b₁) ≤ dval (roundZ a₂ b₂) := by
  rcases eq_or_lt_of_le ha₁ with h0 | h0
  · rw [← h0, roundZ_zero]
    unfold dval
    simp only [Int.cast_zero, zero_mul]
    exact roundZ_nonneg a₂ b₂ ha₂ hb₂
  · have hb₁Q : (0 : ℚ) < b₁ := by exact_mod_cast hb₁
    have ha₂pos : 0 < a₂ := by
      by_contra hc
      have ha₂0 : a₂ = 0 := by omega
      rw [ha₂0] at h
      simp only [Int.cast_zero, zero_div] at h
      have : (0 : ℚ) < (a₁ : ℚ) / b₁ := by
        apply div_pos _ hb₁Q
        exact_mod_cast h0
      linarith
    rw [dval_roundZ_pos a₁ b₁ h0, dval_roundZ_pos a₂ b₂ ha₂pos]
    have hc1 : ((a₁.toNat : ℕ) : ℚ) = (a₁ : ℚ) := by
      exact_mod_cast Int.toNat_of_nonneg ha₁
    have hc2 : ((a₂.toNat : ℕ) : ℚ) = (a₂ : ℚ) := by
      exact_mod_cast Int.toNat_of_nonneg ha₂
    apply roundNN_mono _ _ _ _ (by omega) hb₁ (by omega) hb₂
    rw [hc1, hc2]
    exact h

theorem roundD_spec (x : ℤ × ℤ) : ∃ A : ℤ, ∃ B : ℕ, roundD x = roundZ A B ∧ 1 ≤ B ∧
    (A : ℚ) / B = dval x ∧ (0 ≤ A ↔ 0 ≤ x.1) := by
  unfold roundD
  by_cases hc : (0 : ℤ) ≤ x.2
  · refine ⟨x.1 * 2 ^ x.2.toNat, 1, by rw [if_pos hc], le_rfl, ?_, ?_⟩
    · unfold dval
      rw [show x.2 = (x.2.toNat : ℤ) by omega, zpow_natCast]
      push_cast
      simp only [neg_neg, Int.toNat_natCast]
      ring
    · have hp : (0 : ℤ) < 2 ^ x.2.toNat := by positivity
      constructor
      · intro h
        by_contra hneg
        nlinarith [not_le.mp hneg]
      · intro h
        positivity
  · refine ⟨x.1, 2 ^ (-x.2).toNat, by rw [if_neg hc], Nat.one_le_two_pow, ?_, Iff.rfl⟩
    unfold dval
    rw [show x.2 = -((-x.2).toNat : ℤ) by omega, zpow_neg, zpow_natCast]
    push_cast
    simp only [neg_neg, Int.toNat_natCast]
    ring

theorem roundD_err (x : ℤ × ℤ) (hm : 0 ≤ dval x) :
    |dval (roundD x) - dval x| ≤ dval x * 2 ^ (-53 : ℤ) := by
  obtain ⟨A, B, heq, hB, hval, hsgn⟩ := roundD_spec x
  have hA : 0 ≤ A := hsgn.mpr ((dval_nonneg_iff x).mp hm)
  rw [heq, ← hval]
  exact roundZ_err A B hA hB

theorem roundD_nonneg (x : ℤ × ℤ) (hm : 0 ≤ dval x) : 0 ≤ dval (roundD x) := by
  obtain ⟨A, B, heq, hB, hval, hsgn⟩ := roundD_spec x
  have hA : 0 ≤ A := hsgn.mpr ((dval_nonneg_iff x).mp hm)
  rw [heq]
  exact roundZ_nonneg A B hA hB

theorem roundD_mono (x y : ℤ × ℤ) (hx : 0 ≤ dval x) (h : dval x ≤ dval y) :
    dval (roundD x) ≤ dval (roundD y) := by
  obtain ⟨A₁, B₁, heq₁, hB₁, hval₁, hsgn₁⟩ := roundD_spec x
  obtain ⟨A₂, B₂, heq₂, hB₂, hval₂, hsgn₂⟩ := roundD_spec y
  have hA₁ : 0 ≤ A₁ := hsgn₁.mpr ((dval_nonneg_iff x).mp hx)
  have hA₂ : 0 ≤ A₂ := hsgn₂.mpr ((dval_nonneg_iff y).mp (le_trans hx h))
  rw [heq₁, heq₂]
  apply roundZ_mono A₁ A₂ B₁ B₂ hA₁ hB₁ hB₂ hA₂
  rw [hval₁, hval₂]
  exact h

theorem truncD_eq_floor (x : ℤ × ℤ) (hm : 0 ≤ x.1) : truncD x = ⌊dval x⌋ := by
  unfold truncD dval
  by_cases hc : (0 : ℤ) ≤ x.2
  · rw [if_pos hc]
    have : (x.1 : ℚ) * 2 ^ x.2 = ((x.1 * 2 ^ x.2.toNat : ℤ) : ℚ) := by
      rw [show x.2 = (x.2.toNat : ℤ) by omega, zpow_natCast]
      push_cast
      simp only [neg_neg, Int.toNat_natCast]
    rw [this, Int.floor_intCast]
  · rw [if_neg hc, if_pos hm]
    have hBpos : 0 < 2 ^ (-x.2).toNat := Nat.pos_pow_of_pos _ (by norm_num)
    have : (x.1 : ℚ) * 2 ^ x.2 = ((x.1.toNat : ℕ) : ℚ) / ((2 ^ (-x.2).toNat : ℕ) : ℚ) := by
      rw [show x.2 = -((-x.2).toNat : ℤ) by omega, zpow_neg, zpow_natCast]
      rw [show ((x.1.toNat : ℕ) : ℚ) = (x.1 : ℚ) by exact_mod_cast Int.toNat_of_nonneg hm]
      push_cast
      simp only [neg_neg, Int.toNat_natCast]
      ring
    rw [this, floor_natCast_div _ _ hBpos]

theorem c64_pair : c64 = (4943150951001856, -57) := by decide

theorem dval_c64 : dval c64 = 4943150951001856 / 144115188075855872 := by
  rw [c64_pair]
  unfold dval
  norm_num

theorem distance_mono_aux (d₁ d₂ : ℤ) (h0 : 0 ≤ d₁) (h : d₁ ≤ d₂) :
    distanceFromDuration d₁ ≤ distanceFromDuration d₂ := by
  have hcpos : 0 < dval c64 := by rw [dval_c64] ; norm_num
  have s1 : dval (roundZ d₁ 1) ≤ dval (roundZ d₂ 1) := by
    apply roundZ_mono d₁ d₂ 1 1 h0 le_rfl le_rfl (by omega)
    simp only [Nat.cast_one, div_one]
    exact_mod_cast h
  have n1 : 0 ≤ dval (roundZ d₁ 1) := roundZ_nonneg d₁ 1 h0 le_rfl
  have s2 : dval (mulD (roundZ d₁ 1) c64) ≤ dval (mulD (roundZ d₂ 1) c64) := by
    rw [dval_mulD, dval_mulD]
    exact mul_le_mul_of_nonneg_right s1 (le_of_lt hcpos)
  have n2 : 0 ≤ dval (mulD (roundZ d₁ 1) c64) := by
    rw [dval_mulD]
    exact mul_nonneg n1 (le_of_lt hcpos)
  have s3 : dval (roundD (mulD (roundZ d₁ 1) c64)) ≤
      dval (roundD (mulD (roundZ d₂ 1) c64)) := roundD_mono _ _ n2 s2
  have n3 : 0 ≤ dval (roundD (mulD (roundZ d₁ 1) c64)) := roundD_nonneg _ n2
  have s4 : dval (halfD (roundD (mulD (roundZ d₁ 1) c64))) ≤
      dval (halfD (roundD (mulD (roundZ d₂ 1) c64))) := by
    rw [dval_halfD, dval_halfD]
    linarith
  have n4 : 0 ≤ dval (halfD (roundD (mulD (roundZ d₁ 1) c64))) := by
    rw [dval_halfD]
    linarith
  have s5 : dval (roundD (halfD (roundD (mulD (roundZ d₁ 1) c64)))) ≤
      dval (roundD (halfD (roundD (mulD (roundZ d₂ 1) c64)))) := roundD_mono _ _ n4 s4
  have n5 : 0 ≤ dval (roundD (halfD (roundD (mulD (roundZ d₁ 1) c64)))) :=
    roundD_nonneg _ n4
  have n5' : 0 ≤ dval (roundD (halfD (roundD (mulD (roundZ d₂ 1) c64)))) :=
    le_trans n5 s5
  unfold distanceFromDuration
  rw [truncD_eq_floor _ ((dval_nonneg_iff _).mp n5),
    truncD_eq_floor _ ((dval_nonneg_iff _).mp n5')]
  exact Int.floor_mono s5

theorem distance_band_aux (d : ℤ) (h0 : 0 ≤ d) (h31 : d ≤ 2 ^ 31) :
    specDistance d - 1 ≤ distanceFromDuration d ∧
      distanceFromDuration d ≤ specDistance d + 1 := by
  have hεval : (2 : ℚ) ^ (-53 : ℤ) = 1 / 9007199254740992 := by norm_num
  have hdQ0 : (0 : ℚ) ≤ (d : ℚ) := by exact_mod_cast h0
  have hdQ31 : (d : ℚ) ≤ 2147483648 := by exact_mod_cast h31
  have hcpos : 0 < dval c64 := by rw [dval_c64] ; norm_num
  have hcub : dval c64 ≤ 7 / 200 := by rw [dval_c64] ; norm_num
  have ec : |dval c64 - 343 / 10000| ≤ 343 / 10000 * (1 / 9007199254740992) := by
    rw [dval_c64, abs_le]
    constructor <;> norm_num
  have e0 : |dval (roundZ d 1) - (d : ℚ)| ≤ (d : ℚ) * (1 / 9007199254740992) := by
    have h := roundZ_err d 1 h0 le_rfl
    rw [hεval] at h
    simpa using h
  have n0 : 0 ≤ dval (roundZ d 1) := roundZ_nonneg d 1 h0 le_rfl
  obtain ⟨e0l, e0r⟩ := abs_le.mp e0
  have hu : dval (mulD (roundZ d 1) c64) = dval (roundZ d 1) * dval c64 := dval_mulD _ _
  have hu_nn : 0 ≤ dval (mulD (roundZ d 1) c64) := by
    rw [hu] ; exact mul_nonneg n0 (le_of_lt hcpos)
  have hu_err : |dval (mulD (roundZ d 1) c64) - (d : ℚ) * (343 / 10000)| ≤
      (d : ℚ) * (1 / 9007199254740992) * (7 / 100) := by
    rw [hu]
    have hid : dval (roundZ d 1) * dval c64 - (d : ℚ) * (343 / 10000) =
        (dval (roundZ d 1) - d) * dval c64 + (d : ℚ) * (dval c64 - 343 / 10000) := by
      ring
    rw [hid]
    calc |(dval (roundZ d 1) - d) * dval c64 + (d : ℚ) * (dval c64 - 343 / 10000)|
        ≤ |(dval (roundZ d 1) - d) * dval c64| + |(d : ℚ) * (dval c64 - 343 / 10000)| :=
          abs_add _ _
      _ = |dval (roundZ d 1) - d| * dval c64 + (d : ℚ) * |dval c64 - 343 / 10000| := by
          rw [abs_mul, abs_mul, abs_of_pos hcpos, abs_of_nonneg hdQ0]
      _ ≤ ((d : ℚ) * (1 / 9007199254740992)) * (7 / 200) +
            (d : ℚ) * (343 / 10000 * (1 / 9007199254740992)) := by
          apply add_le_add
          · exact mul_le_mul e0 hcub (le_of_lt hcpos) (by positivity)
          · exact mul_le_mul_of_nonneg_left ec hdQ0
      _ ≤ (d : ℚ) * (1 / 9007199254740992) * (7 / 100) := by linarith
  obtain ⟨hul, hur⟩ := abs_le.mp hu_err
  have hu_ub : dval (mulD (roundZ d 1) c64) ≤ 73658690 := by linarith
  have ep := roundD_err _ hu_nn
  rw [hεval] at ep
  obtain ⟨epl, epr⟩ := abs_le.mp ep
  have hp_nn : 0 ≤ dval (roundD (mulD (roundZ d 1) c64)) := roundD_nonneg _ hu_nn
  have huc : dval (mulD (roundZ d 1) c64) * (1 / 9007199254740992) ≤
      73658690 * (1 / 9007199254740992) := by linarith
  have hp_err : |dval (roundD (mulD (roundZ d 1) c64)) - (d : ℚ) * (343 / 10000)| ≤ 1 / 4 := by
    rw [abs_le]
    constructor <;> linarith
  obtain ⟨hpl, hpr⟩ := abs_le.mp hp_err
  have hp_ub : dval (roundD (mulD (roundZ d 1) c64)) ≤ 73658690 := by linarith
  have hq : dval (halfD (roundD (mulD (roundZ d 1) c64))) =
      dval (roundD (mulD (roundZ d 1) c64)) / 2 := dval_halfD _
  have hq_nn : 0 ≤ dval (halfD (roundD (mulD (roundZ d 1) c64))) := by
    rw [hq] ; linarith
  have ep2 := roundD_err _ hq_nn
  rw [hεval, hq] at ep2
  obtain ⟨ep2l, ep2r⟩ := abs_le.mp ep2
  have hp2_err : |dval (roundD (halfD (roundD (mulD (roundZ d 1) c64)))) -
      (d : ℚ) * (343 / 10000) / 2| ≤ 1 / 2 := by
    rw [abs_le]
    constructor <;> linarith
  obtain ⟨hf1, hf2⟩ := abs_le.mp hp2_err
  have hp2_nn : 0 ≤ dval (roundD (halfD (roundD (mulD (roundZ d 1) c64)))) :=
    roundD_nonneg _ hq_nn
  have hdist : distanceFromDuration d =
      ⌊dval (roundD (halfD (roundD (mulD (roundZ d 1) c64))))⌋ := by
    unfold distanceFromDuration
    exact truncD_eq_floor _ ((dval_nonneg_iff _).mp hp2_nn)
  have hspec : specDistance d = ⌊(d : ℚ) * (343 / 10000) / 2⌋ := rfl
  constructor
  · rw [hdist, hspec]
    have hfl : (⌊(d : ℚ) * (343 / 10000) / 2⌋ : ℚ) ≤ (d : ℚ) * (343 / 10000) / 2 :=
      Int.floor_le _
    have : ((⌊(d : ℚ) * (343 / 10000) / 2⌋ - 1 : ℤ) : ℚ) ≤
        dval (roundD (halfD (roundD (mulD (roundZ d 1) c64)))) := by
      push_cast
      linarith
    exact Int.le_floor.mpr this
  · rw [hdist, hspec]
    have hfu : (d : ℚ) * (343 / 10000) / 2 < (⌊(d : ℚ) * (343 / 10000) / 2⌋ : ℚ) + 1 :=
      Int.lt_floor_add_one _
    have hlt : ⌊dval (roundD (halfD (roundD (mulD (roundZ d 1) c64))))⌋ <
        ⌊(d : ℚ) * (343 / 10000) / 2⌋ + 2 := by
      apply Int.floor_lt.mpr
      push_cast
      linarith
    omega

/-! ### Trace lemmas -/

theorem linesAux_cycle (g : Globals) (u : ℕ) (buf : String) (rest : List Event) :
    linesAux buf ((cycleStep g u).2 ++ rest) =
      (buf ++ reportLine (printedDistance u)) :: linesAux "" rest := by
  simp [cycleStep, linesAux, reportLine, printedDistance, String.append_assoc]

theorem runLoop_lines (us : List ℕ) : ∀ g : Globals,
    emittedLines (runLoop g us) = us.map (fun u => reportLine (printedDistance u)) := by
  induction us with
  | nil => intro g ; rfl
  | cons u us ih =>
    intro g
    unfold runLoop emittedLines
    rw [linesAux_cycle]
    rw [String.empty_append]
    exact congrArg (fun l => reportLine (printedDistance u) :: l) (ih _)

/-! ### Claim theorems -/

/-- C1 (counterexample): the claimed conversion law
`distanceCm = floor(d * 0.0343 / 2)` fails on the code at the echo
duration d = 100000 µs: the binary64 evaluation the program performs
yields 1714 cm, while the exact floor is 1715 cm. -/
theorem C1_floor_law_counterexample :
    distanceFromDuration 100000 = 1714 ∧ specDistance 100000 = 1715 := by
  constructor
  · decide
  · apply Int.floor_eq_iff.mpr
    constructor <;> norm_num

/-- C1 (amended): for every echo duration d in the representable
non-negative range of the 32-bit signed `long`, the computed distance is
within one centimeter of `floor(d * 0.0343 / 2)` (the double rounding of
the binary64 multiply and divide can shift the truncated result by at
most one), and at the spec example d = 1000 the distance is exactly
17 = floor(1000 * 0.0343 / 2). -/
theorem C1_conversion_within_one :
    (∀ d : ℤ, 0 ≤ d → d ≤ 2 ^ 31 →
      specDistance d - 1 ≤ distanceFromDuration d ∧
        distanceFromDuration d ≤ specDistance d + 1) ∧
      distanceFromDuration 1000 = 17 ∧ specDistance 1000 = 17 := by
  refine ⟨fun d h0 h31 => distance_band_aux d h0 h31, by decide, ?_⟩
  apply Int.floor_eq_iff.mpr
  constructor <;> norm_num

/-- C1 (witness): the amended band theorem instantiated at d = 1000. -/
theorem C1_conversion_within_one_witness :
    specDistance 1000 - 1 ≤ distanceFromDuration 1000 ∧
      distanceFromDuration 1000 ≤ specDistance 1000 + 1 :=
  C1_conversion_within_one.1 1000 (by decide) (by decide)

/-- C2: every cycle emits exactly one serial line, of the exact form
`Distance: <N> cm` where `<N>` is the decimal rendering of the computed
distance; in particular a computed distance of 42 renders exactly as
`Distance: 42 cm`. -/
theorem C2_report_format :
    (∀ (g : Globals) (u : ℕ),
      emittedLines (cycleStep g u).2 = [reportLine (printedDistance u)]) ∧
      reportLine 42 = "Distance: 42 cm" := by
  constructor
  · intro g u
    have h := linesAux_cycle g u "" []
    rw [List.append_nil] at h
    unfold emittedLines
    rw [h, String.empty_append]
    rfl
  · decide

/-- C3: when `pulseIn` returns a pulse duration of 0 µs, the computed
distance is 0 and the cycle prints exactly `Distance: 0 cm`. -/
theorem C3_zero_duration :
    printedDistance 0 = 0 ∧
      emittedLines (cycleStep initialGlobals 0).2 = ["Distance: 0 cm"] := by
  constructor <;> decide

/-- C4: the cycle trace is strictly ordered: trigger low, hold 2 µs,
trigger high, hold 10 µs, trigger low, and only then the echo
measurement (positions 0–5 of the trace, in that order); no serial
output occurs anywhere in that prefix, so the measurement completes
before the report is emitted. -/
theorem C4_strict_order : ∀ (g : Globals) (u : ℕ),
    (cycleStep g u).2.take 6 =
      [Event.write trigPin false, Event.delayUs 2, Event.write trigPin true,
        Event.delayUs 10, Event.write trigPin false, Event.pulseInHigh echoPin u] ∧
    ∀ e ∈ (cycleStep g u).2.take 6, ∀ s : String,
      e ≠ Event.serialPrint s ∧ e ≠ Event.serialPrintln s := by
  intro g u
  constructor
  · rfl
  · intro e he s
    have ht : (cycleStep g u).2.take 6 =
        [Event.write trigPin false, Event.delayUs 2, Event.write trigPin true,
          Event.delayUs 10, Event.write trigPin false, Event.pulseInHigh echoPin u] := rfl
    rw [ht] at he
    fin_cases he <;> exact ⟨by simp, by simp⟩

/-- C5: for every sequence of values the blocking measurement primitive
returns — zero, implausible or otherwise — the loop unconditionally
computes, reports and moves on: running the loop over any input sequence
emits exactly one report line per cycle, with no retry, skip, or
fatal-error path. -/
theorem C5_unconditional_cycle : ∀ (g : Globals) (us : List ℕ),
    emittedLines (runLoop g us) = us.map (fun u => reportLine (printedDistance u)) :=
  fun g us => runLoop_lines us g

/-- C6: N cycles with a constant measured duration produce N identical
report lines, and the emitted lines are independent of the incoming
values of the global `duration`/`distance` variables (each cycle
overwrites them before use). -/
theorem C6_idempotent_cycles :
    (∀ (N : ℕ) (u : ℕ) (g : Globals),
      emittedLines (runLoop g (List.replicate N u)) =
        List.replicate N (reportLine (printedDistance u))) ∧
    ∀ (g g' : Globals) (us : List ℕ),
      emittedLines (runLoop g us) = emittedLines (runLoop g' us) := by
  constructor
  · intro N u g
    rw [runLoop_lines]
    exact List.map_replicate
  · intro g g' us
    rw [runLoop_lines, runLoop_lines]

/-- C7: the printed integer can be zero or negative for degenerate
measurements: `pulseIn` returning 0 prints `Distance: 0 cm`, and
`pulseIn` returning 2^32 - 100 (an `unsigned long` that the signed
global `duration` receives as -100) computes the negative distance -1
and prints `Distance: -1 cm`. -/
theorem C7_degenerate_outputs :
    toSigned32 4294967196 = -100 ∧
      printedDistance 4294967196 = -1 ∧
      emittedLines (cycleStep initialGlobals 4294967196).2 = ["Distance: -1 cm"] ∧
      printedDistance 0 = 0 ∧
      emittedLines (cycleStep initialGlobals 0).2 = ["Distance: 0 cm"] := by
  refine ⟨by decide, by decide, by decide, by decide, by decide⟩

/-- C8: every cycle consumes at least 500 ms plus the measurement
latency: the modeled time of one cycle trace is at least 500000 µs plus
the 2 µs and 10 µs trigger holds plus the measured echo wait. -/
theorem C8_cycle_time : ∀ (g : Globals) (u : ℕ),
    500000 + 2 + 10 + u ≤ traceTimeUs (cycleStep g u).2 := by
  intro g u
  simp [cycleStep, traceTimeUs]
  omega

/-- C9: the duration-to-distance conversion is monotone on non-negative
durations: d₁ ≤ d₂ implies the computed distance for d₁ is at most the
computed distance for d₂. -/
theorem C9_conversion_monotone (d₁ d₂ : ℤ) (h0 : 0 ≤ d₁) (h : d₁ ≤ d₂) :
    distanceFromDuration d₁ ≤ distanceFromDuration d₂ :=
  distance_mono_aux d₁ d₂ h0 h

/-- C9 (witness): monotonicity instantiated at 1000 ≤ 2000. -/
theorem C9_conversion_monotone_witness :
    distanceFromDuration 1000 ≤ distanceFromDuration 2000 :=
  C9_conversion_monotone 1000 2000 (by decide) (by decide)

/-- C10: in each cycle the last write to the trigger pin before the
measurement is LOW (position 4, with no write events from the
measurement onward, so the trigger stays low through the measurement and
the report), and the loop never writes to the echo pin — every write
event targets pin 9. -/
theorem C10_pin_discipline : ∀ (g : Globals) (u : ℕ),
    (cycleStep g u).2.get? 4 = some (Event.write trigPin false) ∧
    (∀ e ∈ (cycleStep g u).2.drop 5, ∀ (p : ℕ) (lvl : Bool), e ≠ Event.write p lvl) ∧
    ∀ e ∈ (cycleStep g u).2, ∀ lvl : Bool, e ≠ Event.write echoPin lvl := by
  intro g u
  refine ⟨rfl, ?_, ?_⟩
  · intro e he p lvl
    have hd : (cycleStep g u).2.drop 5 =
        [Event.pulseInHigh echoPin u, Event.serialPrint "Distance: ",
          Event.serialPrint (toString (printedDistance u)), Event.serialPrintln " cm",
          Event.delayMs 500] := rfl
    rw [hd] at he
    fin_cases he <;> simp
  · intro e he lvl
    have hc : (cycleStep g u).2 =
        [Event.write trigPin false, Event.delayUs 2, Event.write trigPin true,
          Event.delayUs 10, Event.write trigPin false, Event.pulseInHigh echoPin u,
          Event.serialPrint "Distance: ",
          Event.serialPrint (toString (printedDistance u)), Event.serialPrintln " cm",
          Event.delayMs 500] := rfl
    rw [hc] at he
    fin_cases he <;> simp [trigPin, echoPin]

end DistanceSampler
